import Mathlib

/-!
Verification of the upm-registry metadata cache engine: a shallow embedding
of the TypeScript sources (server.ts, strip.ts, the prefetcher and the
changes-feed synchronizer) together with proofs about the embedded code.

Documents are modelled as JSON-like values; JavaScript `undefined` is
modelled by `Option.none` wherever a property lookup can miss.
-/

namespace UpmRegistry

/-- JSON-like values as parsed by `JSON.parse`.  Numbers are modelled as
integers; no claim in this development depends on non-integral numerics.
Objects are ordered association lists, matching JavaScript property
insertion order. -/
inductive J where
  | null : J
  | bool : Bool → J
  | num : Int → J
  | str : String → J
  | arr : List J → J
  | obj : List (String × J) → J

/-- First-match lookup in an ordered association list (JavaScript property
access on a plain object). -/
def lookupL {α : Type} : List (String × α) → String → Option α
  | [], _ => none
  | (k, v) :: rest, key => if k = key then some v else lookupL rest key

/-- Property access `value[key]` for the non-numeric keys used by the code:
objects look the key up, non-null primitives and arrays yield `undefined`.
On JSON null the JavaScript access throws a TypeError instead; `jsGet`
returns `undefined` there, which matches the optional-chain sites
(`data["dist-tags"]?.latest`) exactly, while the sites that can actually
throw on a null document or a null version entry are modelled by the
fallible pipeline `stripAndCacheRun` below. -/
def jsGet : J → String → Option J
  | .obj fields, key => lookupL fields key
  | _, _ => none

/-- Whether a value is JSON null (the one parsed value on which property
access throws a TypeError). -/
def isNullJ : J → Bool
  | .null => true
  | _ => false

/-- JavaScript truthiness of a value: `null`, `false`, `0` and `""` are
falsy; objects and arrays (including empty ones) are truthy. -/
def jsTruthy : J → Bool
  | .null => false
  | .bool b => b
  | .num n => n != 0
  | .str s => s ≠ ""
  | .arr _ => true
  | .obj _ => true

/-- Truthiness of a possibly-`undefined` value (`undefined` is falsy). -/
def jsTruthyOpt : Option J → Bool
  | none => false
  | some v => jsTruthy v

/-- `Object.entries(v)`: own enumerable properties in order.  Objects give
their fields, arrays and strings give index-keyed entries, other
primitives give the empty list. -/
def jsEntries : J → List (String × J)
  | .obj fields => fields
  | .arr xs => xs.enum.map (fun p => (toString p.1, p.2))
  | .str s => s.toList.enum.map (fun p => (toString p.1, J.str (String.mk [p.2])))
  | _ => []

/-- `Object.entries(original.versions)` is evaluated only under the caller
guard that `versions` is truthy (hence defined); the `none` branch is
unreachable in the embedded pipeline. -/
def jsEntriesOpt : Option J → List (String × J)
  | none => []
  | some v => jsEntries v

/-- `Object.keys(map)` as used on dependency maps. -/
def jsKeys (v : J) : List String :=
  (jsEntries v).map Prod.fst

-- strip.ts: `KEEP_VERSION_FIELDS`
def KEEP_VERSION_FIELDS : List String :=
  ["name", "version", "dependencies", "optionalDependencies",
   "peerDependencies", "peerDependenciesMeta", "bin", "engines",
   "os", "cpu"]

-- strip.ts: `KEEP_DIST_FIELDS`
def KEEP_DIST_FIELDS : List String := ["tarball", "integrity", "shasum"]

/-- Copy the bindings of `keys` whose value is defined under `f`,
in the order of `keys` (the `for (const key of SET) if (entry[key] !==
undefined) slim[key] = entry[key]` loops in strip.ts). -/
def copyDefined (keys : List String) (f : String → Option J) :
    List (String × J) :=
  keys.filterMap (fun k => (f k).map (fun v => (k, v)))

/-- The per-version body of the loop in strip.ts `stripMetadata`: build
`slim` from the whitelisted fields, then, when `entry.dist` is truthy,
append a `dist` object filtered to `KEEP_DIST_FIELDS`. -/
def stripVersionEntry (entry : J) : J :=
  let base := copyDefined KEEP_VERSION_FIELDS (jsGet entry)
  match jsGet entry "dist" with
  | some d =>
      if jsTruthy d then
        J.obj (base ++ [("dist", J.obj (copyDefined KEEP_DIST_FIELDS (jsGet d)))])
      else
        J.obj base
  | none => J.obj base

/-- A property written in an object literal: absent when the value is
`undefined` (such a property is dropped by `JSON.stringify`). -/
def optBinding (k : String) : Option J → List (String × J)
  | none => []
  | some v => [(k, v)]

/-- strip.ts `stripMetadata`: keep `name` and `dist-tags` as-is and map
every entry of `versions` through `stripVersionEntry`, preserving order. -/
def stripMetadata (d : J) : J :=
  J.obj (optBinding "name" (jsGet d "name")
    ++ optBinding "dist-tags" (jsGet d "dist-tags")
    ++ [("versions",
          J.obj ((jsEntriesOpt (jsGet d "versions")).map
            (fun p => (p.1, stripVersionEntry p.2))))])

/-- The guard in server.ts `stripAndCache` (`if (data.versions &&
data["dist-tags"])`): strip when both keys are truthy, otherwise cache the
document verbatim.  This composite is the spec's trimming transform. -/
def trim (d : J) : J :=
  if jsTruthyOpt (jsGet d "versions") && jsTruthyOpt (jsGet d "dist-tags") then
    stripMetadata d
  else
    d

/-- The body of server.ts `stripAndCache` after `JSON.parse`, with its
failure paths explicit: `none` means a TypeError was thrown and caught
(nothing is cached), `some out` means `out` is what gets cached.  The
guard access `data.versions` at line 61 throws exactly when the parsed
document is JSON null; inside `stripMetadata` the `entry[key]` accesses
throw exactly when some entry of `versions` is JSON null.  Every other
parsed document is stripped (when both keys are truthy) or cached
verbatim. -/
def stripAndCacheRun (d : J) : Option J :=
  if isNullJ d then none
  else if jsTruthyOpt (jsGet d "versions")
      && jsTruthyOpt (jsGet d "dist-tags") then
    if (jsEntriesOpt (jsGet d "versions")).any (fun p => isNullJ p.2) then
      none
    else
      some (stripMetadata d)
  else
    some d

/-- The §8-style whitelist property of a stripped version entry `out`
relative to the original entry `orig`: every key is whitelisted, every
non-`dist` binding is copied from the original (so nothing absent in the
input appears in the output), and the `dist` binding, when present,
comes from a defined original `dist` and carries only whitelisted dist
keys copied from it. -/
def versionEntryWhitelisted (orig out : J) : Prop :=
  ∃ fields, out = J.obj fields ∧
    (∀ q ∈ fields, q.1 ∈ KEEP_VERSION_FIELDS ++ ["dist"]) ∧
    (∀ q ∈ fields, q.1 ≠ "dist" → jsGet orig q.1 = some q.2) ∧
    (∀ q ∈ fields, q.1 = "dist" → ∃ d df, jsGet orig "dist" = some d ∧
       q.2 = J.obj df ∧
       ∀ r ∈ df, r.1 ∈ KEEP_DIST_FIELDS ∧ jsGet d r.1 = some r.2)

/-! ### Registry proxy: request routing and the cache-miss response
(server.ts) -/

/-- How the server callback in server.ts classifies a request, in source
order: health probe, then non-GET passthrough, then special-path
passthrough, then the metadata flow. -/
inductive Disposition where
  | health : Disposition
  | passthrough : Disposition
  | metadata : Disposition
deriving DecidableEq

/-- The request classifier of server.ts (`http.createServer` callback):
first the exact-URL health check, then the non-GET passthrough, then the
sentinel-segment passthrough (`includes` on the URL), then the metadata
flow.  `splitOn` yields one piece exactly when the URL does not contain
the sentinel substring. -/
def hasSentinel : List Char → Bool
  | '/' :: '-' :: '/' :: _ => true
  | _ :: rest => hasSentinel rest
  | [] => false

def route (method url : String) : Disposition :=
  if url = "/-/health" then Disposition.health
  else if method ≠ "GET" then Disposition.passthrough
  else if hasSentinel url.data then Disposition.passthrough
  else Disposition.metadata

/-- A response produced locally by the proxy without an upstream request. -/
structure LocalResponse where
  status : Nat
  headers : List (String × String)
  body : String
  contactsUpstream : Bool

/-- The health branch of server.ts: `writeHead(200, { "content-type":
"text/plain" }); end("ok")`, returning before any upstream request. -/
def healthResponse : LocalResponse :=
  { status := 200
    headers := [("content-type", "text/plain")]
    body := "ok"
    contactsUpstream := false }

/-- The head and body the client receives on a metadata cache miss. -/
structure MissResponse where
  status : Nat
  headers : List (String × String)
  body : List Nat

/-- The upstream-response callback of server.ts `handleMetadata`:
`const relayHeaders = { ...proxyRes.headers }; clientRes.writeHead(
proxyRes.statusCode!, relayHeaders)`, then each arriving chunk is both
buffered and written to the client.  The spread copies the upstream
header map verbatim; no header is removed or added. -/
def handleMetadataMissResponse (upstreamStatus : Nat)
    (upstreamHeaders : List (String × String)) (chunks : List (List Nat)) :
    MissResponse :=
  { status := upstreamStatus
    headers := upstreamHeaders
    body := chunks.flatten }

/-! ### Cache file paths (server.ts `pkgCachePath`, the prefetcher
`cachePath`, the synchronizer `pkgCachePath`) -/

/-- One step of Node `path.join` normalisation over an absolute base:
empty and `.` segments are dropped, `..` removes the previous segment
(and is a no-op at the root), anything else is appended. -/
def normStep (acc : List String) (seg : String) : List String :=
  if seg = "" ∨ seg = "." then acc
  else if seg = ".." then acc.dropLast
  else acc ++ [seg]

/-- Split a character list at a separator; always at least one piece. -/
def splitCharList (sep : Char) : List Char → List (List Char)
  | [] => [[]]
  | x :: xs =>
    match splitCharList sep xs with
    | [] => [[]]
    | seg :: rest =>
        if x = sep then [] :: seg :: rest else (x :: seg) :: rest

/-- `s.split("/")` on the slash separator. -/
def splitSlashes (s : String) : List String :=
  (splitCharList '/' s.data).map (fun l => String.mk l)

def joinSlash : List String → String
  | [] => ""
  | [x] => x
  | x :: xs => x ++ "/" ++ joinSlash xs

/-- Node `path.join(base, rel)` with `base` an already-normal absolute
directory, as the segment list of the resulting absolute path. -/
def pathJoin (baseSegs : List String) (rel : String) : List String :=
  (splitSlashes rel).foldl normStep baseSegs

/-- The `url.replace(/^\//, "")` in server.ts: drop one leading slash. -/
def stripLeadingSlash (url : String) : String :=
  match url.data with
  | '/' :: rest => String.mk rest
  | _ => url

/-- server.ts `pkgCachePath(dir, url)`: `path.join(dir, name + ".json")`
where `name` is the URL path without its leading slash.  No check for
path-traversal segments is performed. -/
def pkgCachePath (dirSegs : List String) (url : String) : List String :=
  pathJoin dirSegs (stripLeadingSlash url ++ ".json")

/-- JavaScript `s.replace("/", "%2f")`: a string pattern replaces only the
first occurrence. -/
def replaceFirstSlash (s : String) : String :=
  match splitSlashes s with
  | [] => s
  | [x] => x
  | x :: xs => x ++ "%2f" ++ joinSlash xs

/-- The prefetcher `cachePath(pkgName)`:
`path.join(CACHE_DIR, pkgName.replace("/", "%2f") + ".json")`. -/
def prefetchCachePath (dirSegs : List String) (pkgName : String) :
    List String :=
  pathJoin dirSegs (replaceFirstSlash pkgName ++ ".json")

/-- The synchronizer `pkgCachePath("/" + change.id)`, identical to the
server variant applied to a slash-prefixed id. -/
def syncCachePath (dirSegs : List String) (id : String) : List String :=
  pkgCachePath dirSegs ("/" ++ id)

/-! ### Change synchronizer (the sync loop source: `pollChanges`,
`readSeq`, `writeSeq`) -/

/-- One entry of a changes-feed page (the `changes` revision list is
never read by the loop and is omitted). -/
structure Chg where
  seq : Nat
  id : String
  deleted : Bool
deriving DecidableEq

/-- The changes-feed responses distinguished by the loop: 429, another
non-2xx status, or a parsed 2xx page. -/
inductive FeedResp where
  | rate429 : FeedResp
  | httpErr : Nat → FeedResp
  | ok : List Chg → Nat → FeedResp
deriving DecidableEq

/-- Observable actions of one loop iteration, in program order. -/
inductive SyncEvent where
  | sleep : Nat → SyncEvent
  | deletePkg : String → SyncEvent
  | updatePkg : String → SyncEvent
  | persistCursor : Nat → SyncEvent
deriving DecidableEq

/-- Synchronizer state: the persisted cursor (`data/.sync-seq`), the
in-memory backoff, and the set of package names held by the cache store
(membership models `fs.existsSync(cachePath)`). -/
structure SyncState where
  cursor : Nat
  backoff : Nat
  store : List String
deriving DecidableEq

def POLL_INTERVAL : Nat := 10000

def BACKOFF_CAP : Nat := 300000

def CHANGES_LIMIT : Nat := 1000

/-- `id.toLowerCase()` (package ids are ASCII; the ASCII lowering of
`Char.toLower` coincides with the JavaScript behaviour there). -/
def lowerStr (s : String) : String :=
  String.mk (s.data.map Char.toLower)

/-- The synchronous scan over `data.results`: skip ids that are not
already lowercase, skip ids absent from the store, delete immediately on
`change.deleted`, and collect the rest into the to-fetch batch.  Returns
the store after deletions, the deletion events in feed order, and the
to-fetch batch in feed order. -/
def scanChanges : List String → List Chg →
    List String × List SyncEvent × List Chg
  | store, [] => (store, [], [])
  | store, c :: rest =>
    if c.id ≠ lowerStr c.id then scanChanges store rest
    else if c.id ∉ store then scanChanges store rest
    else if c.deleted then
      ((scanChanges (store.erase c.id) rest).1,
       SyncEvent.deletePkg c.id :: (scanChanges (store.erase c.id) rest).2.1,
       (scanChanges (store.erase c.id) rest).2.2)
    else
      ((scanChanges store rest).1,
       (scanChanges store rest).2.1,
       c :: (scanChanges store rest).2.2)

/-- The concurrent fetch of the to-fetch batch: `fetchOk id` models a
successful `fetchMetadata` whose document has truthy `versions` and
`dist-tags`; such an id is stripped and written back to the store, a
failing id is left untouched. -/
def applyUpdates (fetchOk : String → Bool) : List String → List Chg →
    List String × List SyncEvent
  | store, [] => (store, [])
  | store, c :: rest =>
    if fetchOk c.id then
      ((applyUpdates fetchOk
          (if c.id ∈ store then store else store ++ [c.id]) rest).1,
       SyncEvent.updatePkg c.id ::
         (applyUpdates fetchOk
           (if c.id ∈ store then store else store ++ [c.id]) rest).2)
    else applyUpdates fetchOk store rest

/-- One iteration of the `while (true)` body of `pollChanges`, given the
feed response for `since = st.cursor`: 429 sleeps the current backoff and
then doubles it up to the cap; another non-2xx sleeps the current backoff
and leaves it unchanged; a 2xx resets the backoff, applies deletions then
updates, persists `last_seq` (`writeSeq`), and sleeps the poll interval
unless the page was full. -/
def syncIter (fetchOk : String → Bool) (st : SyncState) (r : FeedResp) :
    SyncState × List SyncEvent :=
  match r with
  | FeedResp.rate429 =>
      ({ st with backoff := min (2 * st.backoff) BACKOFF_CAP },
       [SyncEvent.sleep st.backoff])
  | FeedResp.httpErr _ => (st, [SyncEvent.sleep st.backoff])
  | FeedResp.ok results last_seq =>
      let sc := scanChanges st.store results
      let au := applyUpdates fetchOk sc.1 sc.2.2
      ({ cursor := last_seq, backoff := POLL_INTERVAL, store := au.1 },
       sc.2.1 ++ au.2 ++ [SyncEvent.persistCursor last_seq]
         ++ (if CHANGES_LIMIT ≤ results.length then []
             else [SyncEvent.sleep POLL_INTERVAL]))

/-- Iterated loop: each iteration requests the feed at the currently
persisted cursor and steps the state. -/
def runSync (fetchOk : String → Bool) (feed : Nat → FeedResp) :
    Nat → SyncState → SyncState
  | 0, st => st
  | fuel + 1, st => runSync fetchOk feed fuel (syncIter fetchOk st (feed st.cursor)).1

/-- Every cursor value written by the trace is at least `init`: the
persisted cursor file never regresses below its starting value, even if
execution stops at an arbitrary point of the trace. -/
def noCursorRegression (init : Nat) (tr : List SyncEvent) : Bool :=
  tr.all (fun e =>
    match e with
    | SyncEvent.persistCursor s => decide (init ≤ s)
    | _ => true)

def isApplyEvent : SyncEvent → Bool
  | SyncEvent.deletePkg _ => true
  | SyncEvent.updatePkg _ => true
  | _ => false

def isPersist : SyncEvent → Bool
  | SyncEvent.persistCursor _ => true
  | _ => false

/-- No deletion or update is applied after a cursor write in the trace:
the cursor is persisted only once the batch has been applied. -/
def appliesPrecedePersist : List SyncEvent → Bool
  | [] => true
  | e :: rest =>
      if isPersist e then rest.all (fun x => !isApplyEvent x)
      else appliesPrecedePersist rest

/-! ### Dependency prefetcher (the prefetcher source: `extractDeps`,
`fetchAndCache`, `prefetchTree`) -/

/-- JavaScript property-key coercion for the value of
`dist-tags.latest` when used as `data.versions[latest]`.  Primitive
cases are exact; containers stringify through `toString` (arrays join
their elements), which no claim exercises and which is approximated by
fixed strings here. -/
def jsToPropKey : J → String
  | J.str s => s
  | J.num n => toString n
  | J.bool b => if b then "true" else "false"
  | J.null => "null"
  | J.arr _ => ""
  | J.obj _ => "[object Object]"

/-- `Set.add` on an insertion-ordered set. -/
def insertUniq (l : List String) (x : String) : List String :=
  if x ∈ l then l else l ++ [x]

def depFields : List String :=
  ["dependencies", "optionalDependencies", "peerDependencies"]

/-- The loop body of `extractDeps`: union of the keys of the three
dependency maps of the latest version entry, deduplicated in insertion
order by the `Set`. -/
def collectDeps (entry : J) : List String :=
  depFields.foldl
    (fun acc field =>
      match jsGet entry field with
      | some m => if jsTruthy m then (jsKeys m).foldl insertUniq acc else acc
      | none => acc)
    []

/-- The prefetcher `extractDeps(data)`: follow `dist-tags.latest` (the
optional chain makes a missing map yield `undefined`), return `[]` when
`latest` or the version entry is falsy, else collect the dependency
names.  `data.versions` is defined on every document reaching this
function (checked by `fetchAndCache` and by the strip guard). -/
def extractDeps (data : J) : List String :=
  match (jsGet data "dist-tags").bind (fun dt => jsGet dt "latest") with
  | none => []
  | some lv =>
      if jsTruthy lv = false then []
      else
        match (jsGet data "versions").bind
            (fun vs => jsGet vs (jsToPropKey lv)) with
        | none => []
        | some entry =>
            if jsTruthy entry = false then [] else collectDeps entry

def MAX_PREFETCH : Nat := 200

/-- The dependency scan of one dequeued document (the `for (const name
of depNames)` loop): a name already visited is skipped; otherwise it is
added to the visited set and then filtered against the cache store, the
process-wide inflight set, and the budget; the budget check breaks the
loop.  Returns the grown visited set, the new count, and the batch to
fetch. -/
def scanDeps (cache inflight : String → Bool) :
    List String → List String → Nat → List String × Nat × List String
  | [], visited, count => (visited, count, [])
  | n :: rest, visited, count =>
    if n ∈ visited then scanDeps cache inflight rest visited count
    else
      if cache n then scanDeps cache inflight rest (visited ++ [n]) count
      else if inflight n then
        scanDeps cache inflight rest (visited ++ [n]) count
      else if MAX_PREFETCH ≤ count then (visited ++ [n], count, [])
      else
        ((scanDeps cache inflight rest (visited ++ [n]) (count + 1)).1,
         (scanDeps cache inflight rest (visited ++ [n]) (count + 1)).2.1,
         n :: (scanDeps cache inflight rest (visited ++ [n]) (count + 1)).2.2)

/-- `fetchAndCache(pkgName)` as seen by the traversal: `env` models the
network fetch and JSON parse; a response lacking truthy `versions` or
`dist-tags` yields null.  (On success the function also strips and
writes the document to the cache store.) -/
def fetchAndCacheM (env : String → Option J) (name : String) : Option J :=
  (env name).bind (fun d =>
    if jsTruthyOpt (jsGet d "versions") && jsTruthyOpt (jsGet d "dist-tags")
    then some d else none)

/-- The `while (queue.length > 0)` loop of `prefetchTree`, returning the
names for which an upstream fetch is issued, in order.  `cache` and
`inflight` are snapshots of the store and of the process-wide inflight
set; the semaphore bounds concurrency only and does not affect which
names are fetched.  When the budget is reached the walk stops and the
collected batch is discarded, as in the source.  Fuel bounds the loop
for termination. -/
def prefetchLoop (env : String → Option J) (cache inflight : String → Bool) :
    Nat → List J → List String → Nat → List String
  | 0, _, _, _ => []
  | _ + 1, [], _, _ => []
  | fuel + 1, cur :: rest, visited, count =>
    let s := scanDeps cache inflight (extractDeps cur) visited count
    if MAX_PREFETCH ≤ s.2.1 then []
    else
      let fetched := s.2.2.filter (fun n => !cache n)
      let newDocs := fetched.filterMap (fun n => fetchAndCacheM env n)
      fetched ++ prefetchLoop env cache inflight fuel (rest ++ newDocs) s.1 s.2.1

/-- `prefetchTree(rootData)`: visited starts holding the root name
(`visited.add(rootData.name)`; a non-string name never equals a
dependency key string and is modelled as no entry), the queue starts
with the root document, and the count at zero. -/
def prefetchTree (env : String → Option J) (cache inflight : String → Bool)
    (fuel : Nat) (root : J) : List String :=
  prefetchLoop env cache inflight fuel [root]
    (match jsGet root "name" with
     | some (J.str s) => [s]
     | _ => []) 0

/-! ### Concrete documents used by witnesses and counterexamples -/

/-- A document whose `versions` key holds a truthy non-mapping value. -/
def nonMappingDoc : J :=
  J.obj [("name", J.str "x"),
         ("dist-tags", J.obj [("latest", J.str "1.0.0")]),
         ("versions", J.num 42)]

/-- A document with no `versions` key at all. -/
def noVersionsDoc : J := J.obj [("name", J.str "left-pad")]

def exampleVersions : List (String × J) :=
  [("1.0.0",
    J.obj [("version", J.str "1.0.0"),
           ("description", J.str "bloat"),
           ("dist", J.obj [("tarball", J.str "https://r/a-1.0.0.tgz"),
                           ("unpackedSize", J.num 100)])])]

/-- A well-formed metadata document with one version entry carrying both
whitelisted and discarded fields. -/
def exampleDoc : J :=
  J.obj [("name", J.str "a"),
         ("dist-tags", J.obj [("latest", J.str "1.0.0")]),
         ("versions", J.obj exampleVersions)]

/-! ### Lookup lemmas for the association-list object model -/

theorem lookupL_append {α : Type} (l1 l2 : List (String × α)) (k : String) :
    lookupL (l1 ++ l2) k =
      match lookupL l1 k with
      | some v => some v
      | none => lookupL l2 k := by
  induction l1 with
  | nil => simp [lookupL]
  | cons p rest ih =>
    by_cases h : p.1 = k
    · simp [lookupL, h]
    · simp [lookupL, h, ih]

theorem lookupL_copyDefined (ks : List String) (f : String → Option J)
    (k : String) :
    lookupL (copyDefined ks f) k = if k ∈ ks then f k else none := by
  induction ks with
  | nil => simp [copyDefined, lookupL]
  | cons k' ks ih =>
    by_cases hk : k' = k
    · subst hk
      cases hfk : f k' with
      | none =>
        simp only [copyDefined, List.filterMap_cons, hfk, Option.map_none']
        rw [show List.filterMap
              (fun k => Option.map (fun v => (k, v)) (f k)) ks
            = copyDefined ks f from rfl, ih]
        by_cases hmem : k' ∈ ks <;> simp [hmem, hfk]
      | some v =>
        simp [copyDefined, List.filterMap_cons, hfk, lookupL]
    · have hk' : ¬(k = k') := fun h => hk h.symm
      cases hfk : f k' with
      | none =>
        simp only [copyDefined, List.filterMap_cons, hfk, Option.map_none']
        rw [show List.filterMap
              (fun k => Option.map (fun v => (k, v)) (f k)) ks
            = copyDefined ks f from rfl, ih]
        simp [List.mem_cons, hk']
      | some v =>
        simp only [copyDefined, List.filterMap_cons, hfk, Option.map_some',
          lookupL, hk, if_false]
        rw [show List.filterMap
              (fun k => Option.map (fun v => (k, v)) (f k)) ks
            = copyDefined ks f from rfl, ih]
        simp [List.mem_cons, hk']

theorem mem_copyDefined {ks : List String} {f : String → Option J}
    {p : String × J} (hp : p ∈ copyDefined ks f) :
    p.1 ∈ ks ∧ f p.1 = some p.2 := by
  unfold copyDefined at hp
  rcases List.mem_filterMap.mp hp with ⟨k, hk, hmap⟩
  rcases Option.map_eq_some'.mp hmap with ⟨v, hv, hpv⟩
  cases hpv
  exact ⟨hk, hv⟩

theorem copyDefined_congr {ks : List String} {f g : String → Option J}
    (h : ∀ k ∈ ks, f k = g k) : copyDefined ks f = copyDefined ks g := by
  unfold copyDefined
  induction ks with
  | nil => rfl
  | cons k' ks ih =>
    simp only [List.filterMap_cons, h k' (List.mem_cons_self k' ks),
      ih (fun k hk => h k (List.mem_cons_of_mem k' hk))]

/-! ### Structure of a stripped version entry -/

theorem jsGet_obj (fields : List (String × J)) (k : String) :
    jsGet (J.obj fields) k = lookupL fields k := rfl

theorem stripVersionEntry_eq_none {e : J} (hd : jsGet e "dist" = none) :
    stripVersionEntry e = J.obj (copyDefined KEEP_VERSION_FIELDS (jsGet e)) := by
  unfold stripVersionEntry
  rw [hd]

theorem stripVersionEntry_eq_falsy {e d : J} (hd : jsGet e "dist" = some d)
    (ht : jsTruthy d = false) :
    stripVersionEntry e = J.obj (copyDefined KEEP_VERSION_FIELDS (jsGet e)) := by
  unfold stripVersionEntry
  rw [hd]
  simp [ht]

theorem stripVersionEntry_eq_dist {e d : J} (hd : jsGet e "dist" = some d)
    (ht : jsTruthy d = true) :
    stripVersionEntry e = J.obj (copyDefined KEEP_VERSION_FIELDS (jsGet e)
      ++ [("dist", J.obj (copyDefined KEEP_DIST_FIELDS (jsGet d)))]) := by
  unfold stripVersionEntry
  rw [hd]
  simp [ht]

theorem jsGet_stripVersionEntry_keep (e : J) (k : String)
    (hk : k ∈ KEEP_VERSION_FIELDS) :
    jsGet (stripVersionEntry e) k = jsGet e k := by
  have hkd : ¬("dist" = k) := by
    intro h; subst h; revert hk; decide
  cases hd : jsGet e "dist" with
  | none =>
    rw [stripVersionEntry_eq_none hd, jsGet_obj, lookupL_copyDefined,
      if_pos hk]
  | some d =>
    cases ht : jsTruthy d with
    | false =>
      rw [stripVersionEntry_eq_falsy hd ht, jsGet_obj, lookupL_copyDefined,
        if_pos hk]
    | true =>
      rw [stripVersionEntry_eq_dist hd ht, jsGet_obj, lookupL_append,
        lookupL_copyDefined, if_pos hk]
      cases hgk : jsGet e k with
      | some v => rfl
      | none => simp [lookupL, hkd]

theorem jsGet_stripVersionEntry_dist (e : J) :
    jsGet (stripVersionEntry e) "dist" =
      match jsGet e "dist" with
      | some d =>
          if jsTruthy d then
            some (J.obj (copyDefined KEEP_DIST_FIELDS (jsGet d)))
          else none
      | none => none := by
  have hnd : ¬("dist" ∈ KEEP_VERSION_FIELDS) := by decide
  cases hd : jsGet e "dist" with
  | none =>
    rw [stripVersionEntry_eq_none hd, jsGet_obj, lookupL_copyDefined,
      if_neg hnd]
  | some d =>
    cases ht : jsTruthy d with
    | false =>
      rw [stripVersionEntry_eq_falsy hd ht, jsGet_obj, lookupL_copyDefined,
        if_neg hnd]
      simp [ht]
    | true =>
      rw [stripVersionEntry_eq_dist hd ht, jsGet_obj, lookupL_append,
        lookupL_copyDefined, if_neg hnd]
      simp [ht, lookupL]

theorem stripVersionEntry_idem (e : J) :
    stripVersionEntry (stripVersionEntry e) = stripVersionEntry e := by
  have hbase : copyDefined KEEP_VERSION_FIELDS (jsGet (stripVersionEntry e))
      = copyDefined KEEP_VERSION_FIELDS (jsGet e) :=
    copyDefined_congr (fun k hk => jsGet_stripVersionEntry_keep e k hk)
  cases hd : jsGet e "dist" with
  | none =>
    have hd' : jsGet (stripVersionEntry e) "dist" = none := by
      rw [jsGet_stripVersionEntry_dist, hd]
    rw [stripVersionEntry_eq_none hd', hbase, stripVersionEntry_eq_none hd]
  | some d =>
    cases ht : jsTruthy d with
    | false =>
      have hd' : jsGet (stripVersionEntry e) "dist" = none := by
        rw [jsGet_stripVersionEntry_dist, hd]
        simp [ht]
      rw [stripVersionEntry_eq_none hd', hbase,
        stripVersionEntry_eq_falsy hd ht]
    | true =>
      have hd' : jsGet (stripVersionEntry e) "dist"
          = some (J.obj (copyDefined KEEP_DIST_FIELDS (jsGet d))) := by
        rw [jsGet_stripVersionEntry_dist, hd]
        simp [ht]
      have htrue : jsTruthy (J.obj (copyDefined KEEP_DIST_FIELDS (jsGet d)))
          = true := rfl
      rw [stripVersionEntry_eq_dist hd' htrue, hbase,
        stripVersionEntry_eq_dist hd ht]
      have hdl : copyDefined KEEP_DIST_FIELDS
          (jsGet (J.obj (copyDefined KEEP_DIST_FIELDS (jsGet d))))
          = copyDefined KEEP_DIST_FIELDS (jsGet d) := by
        apply copyDefined_congr
        intro k hk
        rw [jsGet_obj, lookupL_copyDefined, if_pos hk]
      rw [hdl]

/-! ### Structure of a stripped document -/

theorem stripMetadata_eq (d : J) :
    stripMetadata d = J.obj (optBinding "name" (jsGet d "name")
      ++ optBinding "dist-tags" (jsGet d "dist-tags")
      ++ [("versions",
            J.obj ((jsEntriesOpt (jsGet d "versions")).map
              (fun p => (p.1, stripVersionEntry p.2))))]) := rfl

theorem jsGet_stripMetadata_name (d : J) :
    jsGet (stripMetadata d) "name" = jsGet d "name" := by
  rw [stripMetadata_eq, jsGet_obj]
  cases hn : jsGet d "name" <;>
    cases ht : jsGet d "dist-tags" <;>
      simp [optBinding, lookupL]

theorem jsGet_stripMetadata_distTags (d : J) :
    jsGet (stripMetadata d) "dist-tags" = jsGet d "dist-tags" := by
  rw [stripMetadata_eq, jsGet_obj]
  cases hn : jsGet d "name" <;>
    cases ht : jsGet d "dist-tags" <;>
      simp [optBinding, lookupL]

theorem jsGet_stripMetadata_versions (d : J) :
    jsGet (stripMetadata d) "versions" =
      some (J.obj ((jsEntriesOpt (jsGet d "versions")).map
        (fun p => (p.1, stripVersionEntry p.2)))) := by
  rw [stripMetadata_eq, jsGet_obj]
  cases hn : jsGet d "name" <;>
    cases ht : jsGet d "dist-tags" <;>
      simp [optBinding, lookupL]

theorem stripMetadata_idem (d : J) :
    stripMetadata (stripMetadata d) = stripMetadata d := by
  have hmap : ∀ L : List (String × J),
      (L.map (fun p => (p.1, stripVersionEntry p.2))).map
        (fun p => (p.1, stripVersionEntry p.2))
      = L.map (fun p => (p.1, stripVersionEntry p.2)) := by
    intro L
    rw [List.map_map]
    apply List.map_congr_left
    intro p _
    simp [Function.comp, stripVersionEntry_idem]
  rw [stripMetadata_eq (stripMetadata d), jsGet_stripMetadata_name,
    jsGet_stripMetadata_distTags, jsGet_stripMetadata_versions,
    stripMetadata_eq d]
  rw [show jsEntriesOpt (some (J.obj
        ((jsEntriesOpt (jsGet d "versions")).map
          (fun p => (p.1, stripVersionEntry p.2)))))
      = (jsEntriesOpt (jsGet d "versions")).map
          (fun p => (p.1, stripVersionEntry p.2)) from rfl]
  rw [hmap]

/-! ### Proxy claims -/

/-- C1 counterexample: on a cache miss the head relayed to the client
keeps the upstream `transfer-encoding: chunked` header and carries no
`content-length` at all (the buffered body here has length 2), refuting
the claimed header rewriting at this concrete upstream response. -/
theorem miss_head_counterexample :
    lookupL (handleMetadataMissResponse 200
      [("content-type", "application/json"),
       ("transfer-encoding", "chunked")] [[104, 105]]).headers
      "transfer-encoding" = some "chunked"
    ∧ lookupL (handleMetadataMissResponse 200
      [("content-type", "application/json"),
       ("transfer-encoding", "chunked")] [[104, 105]]).headers
      "content-length" = none :=
  ⟨rfl, rfl⟩

/-- C1 (amended): for every metadata GET that misses the cache and
receives an upstream response, the response sent to the client carries
the upstream status code and the upstream headers unchanged —
`transfer-encoding` is not removed and `content-length` is not rewritten
— and the body is the concatenation of the upstream chunks as
received. -/
theorem miss_head_relays_upstream (status : Nat)
    (headers : List (String × String)) (chunks : List (List Nat)) :
    (handleMetadataMissResponse status headers chunks).status = status
    ∧ (handleMetadataMissResponse status headers chunks).headers = headers
    ∧ (handleMetadataMissResponse status headers chunks).body
        = chunks.flatten :=
  ⟨rfl, rfl, rfl⟩

/-- C10: a request whose URL is exactly the health path is classified as
a health probe before the method is inspected, for every method, and the
health response is a local 200 with body ok that does not contact
upstream. -/
theorem health_served_locally (method : String) :
    route method "/-/health" = Disposition.health
    ∧ healthResponse.status = 200
    ∧ healthResponse.body = "ok"
    ∧ healthResponse.contactsUpstream = false :=
  ⟨rfl, rfl, rfl, rfl⟩

/-! ### Cache path claims -/

/-- C2: a GET whose path contains traversal segments is routed to the
metadata flow, and `pkgCachePath` maps it to a file outside the cache
directory (here the absolute path of segments `etc, passwd.json`), so
names containing `..` are not rejected. -/
theorem traversal_name_escapes_cache_dir :
    route "GET" "/../../../etc/passwd" = Disposition.metadata
    ∧ pkgCachePath ["srv", "registry", "cache"] "/../../../etc/passwd"
        = ["etc", "passwd.json"]
    ∧ List.isPrefixOf ["srv", "registry", "cache"]
        (pkgCachePath ["srv", "registry", "cache"] "/../../../etc/passwd")
        = false :=
  ⟨rfl, rfl, rfl⟩

/-- C3: for the scoped name `@types/node` the proxy and the synchronizer
derive a nested path `cache/@types/node.json` (creating a directory
under the cache), while the prefetcher derives the single encoded file
`cache/@types%2fnode.json`; the three components disagree. -/
theorem scoped_name_paths_diverge :
    pkgCachePath ["srv", "registry", "cache"] "/@types/node"
        = ["srv", "registry", "cache", "@types", "node.json"]
    ∧ prefetchCachePath ["srv", "registry", "cache"] "@types/node"
        = ["srv", "registry", "cache", "@types%2fnode.json"]
    ∧ syncCachePath ["srv", "registry", "cache"] "@types/node"
        = ["srv", "registry", "cache", "@types", "node.json"]
    ∧ pkgCachePath ["srv", "registry", "cache"] "/@types/node"
        ≠ prefetchCachePath ["srv", "registry", "cache"] "@types/node" := by
  refine ⟨rfl, rfl, rfl, ?_⟩
  decide

/-! ### Trimmer claims -/

theorem stripVersionEntry_whitelisted (e : J) :
    versionEntryWhitelisted e (stripVersionEntry e) := by
  have hbase : ∀ q ∈ copyDefined KEEP_VERSION_FIELDS (jsGet e),
      q.1 ∈ KEEP_VERSION_FIELDS ∧ jsGet e q.1 = some q.2 :=
    fun _ hq => mem_copyDefined hq
  have hnk : ¬("dist" ∈ KEEP_VERSION_FIELDS) := by decide
  cases hd : jsGet e "dist" with
  | none =>
    refine ⟨_, stripVersionEntry_eq_none hd, ?_, ?_, ?_⟩
    · intro q hq
      exact List.mem_append_left _ (hbase q hq).1
    · intro q hq _
      exact (hbase q hq).2
    · intro q hq hqd
      exact absurd (hqd ▸ (hbase q hq).1) hnk
  | some d =>
    cases ht : jsTruthy d with
    | false =>
      refine ⟨_, stripVersionEntry_eq_falsy hd ht, ?_, ?_, ?_⟩
      · intro q hq
        exact List.mem_append_left _ (hbase q hq).1
      · intro q hq _
        exact (hbase q hq).2
      · intro q hq hqd
        exact absurd (hqd ▸ (hbase q hq).1) hnk
    | true =>
      refine ⟨_, stripVersionEntry_eq_dist hd ht, ?_, ?_, ?_⟩
      · intro q hq
        rcases List.mem_append.mp hq with h | h
        · exact List.mem_append_left _ (hbase q h).1
        · rw [List.mem_singleton.mp h]
          exact List.mem_append_right _ (List.mem_singleton.mpr rfl)
      · intro q hq hqd
        rcases List.mem_append.mp hq with h | h
        · exact (hbase q h).2
        · exact absurd (congrArg Prod.fst (List.mem_singleton.mp h)) hqd
      · intro q hq hqd
        rcases List.mem_append.mp hq with h | h
        · exact absurd (hqd ▸ (hbase q h).1) hnk
        · have hq2 := List.mem_singleton.mp h
          refine ⟨d, copyDefined KEEP_DIST_FIELDS (jsGet d), hd, ?_, ?_⟩
          · rw [hq2]
          · intro r hr
            exact mem_copyDefined hr

/-- C4 counterexample: a document whose `versions` key holds the truthy
non-mapping value 42 (so the document lacks a `versions` mapping) is not
passed through unchanged — the guard tests truthiness, not mapping-ness,
so the document is stripped and its `versions` becomes an empty
object. -/
theorem trim_nonmapping_changed :
    (∀ m : List (String × J),
      jsGet nonMappingDoc "versions" ≠ some (J.obj m))
    ∧ trim nonMappingDoc ≠ nonMappingDoc := by
  constructor
  · intro m h
    rw [show jsGet nonMappingDoc "versions" = some (J.num 42) from rfl] at h
    exact J.noConfusion (Option.some.inj h)
  · intro h
    have hv : jsGet (trim nonMappingDoc) "versions"
        = jsGet nonMappingDoc "versions" := by rw [h]
    rw [show jsGet (trim nonMappingDoc) "versions" = some (J.obj [])
          from rfl,
        show jsGet nonMappingDoc "versions" = some (J.num 42) from rfl]
      at hv
    exact J.noConfusion (Option.some.inj hv)

/-- C4 (amended): every parsed document other than JSON null whose
`versions` key is absent or falsy, or whose `dist-tags` key is absent or
falsy, makes the strip pipeline terminate without failure and cache the
document unchanged, so trim(D) = D there.  (At JSON null the guard
access throws and nothing is cached; a truthy non-mapping value at both
keys is stripped instead, as the counterexample shows.) -/
theorem trim_passthrough (d : J) (hnn : isNullJ d = false)
    (h : jsTruthyOpt (jsGet d "versions") = false
       ∨ jsTruthyOpt (jsGet d "dist-tags") = false) :
    stripAndCacheRun d = some d ∧ trim d = d := by
  have hg : (jsTruthyOpt (jsGet d "versions")
      && jsTruthyOpt (jsGet d "dist-tags")) = false := by
    rcases h with h | h
    · rw [h, Bool.false_and]
    · rw [h, Bool.and_false]
  constructor
  · rw [stripAndCacheRun]
    simp [hnn, hg]
  · rw [trim]
    simp [hg]

/-- C4 witness: a document with no `versions` key is cached unchanged by
the pipeline. -/
theorem trim_passthrough_witness :
    (isNullJ noVersionsDoc = false
      ∧ (jsTruthyOpt (jsGet noVersionsDoc "versions") = false
         ∨ jsTruthyOpt (jsGet noVersionsDoc "dist-tags") = false))
    ∧ (stripAndCacheRun noVersionsDoc = some noVersionsDoc
       ∧ trim noVersionsDoc = noVersionsDoc) :=
  ⟨⟨rfl, Or.inl rfl⟩, trim_passthrough noVersionsDoc rfl (Or.inl rfl)⟩

/-- C6: the trimmer is idempotent — trimming a trimmed document yields
the same document, for every document. -/
theorem trim_idempotent (d : J) : trim (trim d) = trim d := by
  by_cases hg : (jsTruthyOpt (jsGet d "versions")
      && jsTruthyOpt (jsGet d "dist-tags")) = true
  · have h1 : trim d = stripMetadata d := by rw [trim, if_pos hg]
    have hg2 := hg
    rw [Bool.and_eq_true] at hg2
    have hvt : jsTruthyOpt (jsGet (stripMetadata d) "versions") = true := by
      rw [jsGet_stripMetadata_versions]
      rfl
    have hdt : jsTruthyOpt (jsGet (stripMetadata d) "dist-tags") = true := by
      rw [jsGet_stripMetadata_distTags]
      exact hg2.2
    rw [h1, trim, if_pos (by rw [hvt, hdt]; rfl), stripMetadata_idem]
  · have h1 : trim d = d := by rw [trim, if_neg hg]
    rw [h1, h1]

/-- C7: for a document with `versions` and `dist-tags` mappings, the
trimmed `versions` maps each input entry through `stripVersionEntry` in
order, and each resulting entry carries only whitelisted keys, each
copied from the input entry (so nothing absent in the input appears),
with the nested `dist` reduced to whitelisted dist keys copied from the
input dist. -/
theorem trim_version_whitelist (D : J) (vs dts : List (String × J))
    (hv : jsGet D "versions" = some (J.obj vs))
    (ht : jsGet D "dist-tags" = some (J.obj dts)) :
    jsGet (trim D) "versions"
      = some (J.obj (vs.map (fun p => (p.1, stripVersionEntry p.2))))
    ∧ ∀ p ∈ vs, versionEntryWhitelisted p.2 (stripVersionEntry p.2) := by
  have hg : (jsTruthyOpt (jsGet D "versions")
      && jsTruthyOpt (jsGet D "dist-tags")) = true := by
    rw [hv, ht]
    rfl
  constructor
  · rw [trim, if_pos hg, jsGet_stripMetadata_versions, hv]
    rfl
  · intro p _
    exact stripVersionEntry_whitelisted p.2

/-- C7 witness: the theorem at a concrete document with one version
entry carrying both whitelisted and discarded fields. -/
theorem trim_version_whitelist_witness :
    jsGet (trim exampleDoc) "versions"
      = some (J.obj (exampleVersions.map
          (fun p => (p.1, stripVersionEntry p.2))))
    ∧ ∀ p ∈ exampleVersions,
        versionEntryWhitelisted p.2 (stripVersionEntry p.2) :=
  trim_version_whitelist exampleDoc exampleVersions
    [("latest", J.str "1.0.0")] rfl rfl

/-! ### Synchronizer claims -/

theorem scanChanges_events_delete (cs : List Chg) :
    ∀ store, ∀ e ∈ (scanChanges store cs).2.1,
      ∃ id, e = SyncEvent.deletePkg id := by
  induction cs with
  | nil =>
    intro store e he
    simp [scanChanges] at he
  | cons c rest ih =>
    intro store e he
    rw [scanChanges] at he
    by_cases h1 : c.id ≠ lowerStr c.id
    · rw [if_pos h1] at he
      exact ih store e he
    · rw [if_neg h1] at he
      by_cases h2 : c.id ∉ store
      · rw [if_pos h2] at he
        exact ih store e he
      · rw [if_neg h2] at he
        by_cases h3 : c.deleted = true
        · rw [if_pos h3] at he
          replace he : e ∈ SyncEvent.deletePkg c.id
              :: (scanChanges (store.erase c.id) rest).2.1 := he
          rcases List.mem_cons.mp he with he | he
          · exact ⟨c.id, he⟩
          · exact ih _ e he
        · rw [if_neg h3] at he
          exact ih store e he

theorem applyUpdates_events_update (fetchOk : String → Bool)
    (cs : List Chg) :
    ∀ store, ∀ e ∈ (applyUpdates fetchOk store cs).2,
      ∃ id, e = SyncEvent.updatePkg id := by
  induction cs with
  | nil =>
    intro store e he
    simp [applyUpdates] at he
  | cons c rest ih =>
    intro store e he
    rw [applyUpdates] at he
    by_cases h1 : fetchOk c.id = true
    · rw [if_pos h1] at he
      replace he : e ∈ SyncEvent.updatePkg c.id
          :: (applyUpdates fetchOk
            (if c.id ∈ store then store else store ++ [c.id]) rest).2 := he
      rcases List.mem_cons.mp he with he | he
      · exact ⟨c.id, he⟩
      · exact ih _ e he
    · rw [if_neg h1] at he
      exact ih store e he

theorem appliesPrecedePersist_append {l1 l2 : List SyncEvent}
    (h : ∀ e ∈ l1, isPersist e = false) :
    appliesPrecedePersist (l1 ++ l2) = appliesPrecedePersist l2 := by
  induction l1 with
  | nil => rfl
  | cons e rest ih =>
    rw [List.cons_append, appliesPrecedePersist,
      h e (List.mem_cons_self e rest)]
    simp only [Bool.false_eq_true, if_false]
    exact ih (fun x hx => h x (List.mem_cons_of_mem e hx))

theorem syncIter_cursor_le (fetchOk : String → Bool) (st : SyncState)
    (r : FeedResp)
    (hr : ∀ results last_seq, r = FeedResp.ok results last_seq →
        st.cursor ≤ last_seq) :
    st.cursor ≤ (syncIter fetchOk st r).1.cursor := by
  cases r with
  | rate429 => exact Nat.le_refl _
  | httpErr n => exact Nat.le_refl _
  | ok results last_seq => exact hr results last_seq rfl

theorem runSync_cursor_le (fetchOk : String → Bool) (feed : Nat → FeedResp)
    (hfeed : ∀ c results last_seq,
        feed c = FeedResp.ok results last_seq → c ≤ last_seq) :
    ∀ fuel st, st.cursor ≤ (runSync fetchOk feed fuel st).cursor := by
  intro fuel
  induction fuel with
  | zero => intro st; exact Nat.le_refl _
  | succ n ih =>
    intro st
    have h1 : st.cursor ≤ (syncIter fetchOk st (feed st.cursor)).1.cursor :=
      syncIter_cursor_le fetchOk st (feed st.cursor)
        (fun results last_seq h => hfeed st.cursor results last_seq h)
    exact Nat.le_trans h1 (ih (syncIter fetchOk st (feed st.cursor)).1)

/-- C5: in every iteration of the synchronizer, the persisted cursor
does not decrease — the new state cursor is at least the old one, every
cursor value written in the iteration trace is at least the starting
value (so even an abandoned iteration cannot regress the file), and no
deletion or update is applied after the cursor write in the trace (the
cursor is persisted only after the batch has been applied to the
store).  Iterating the loop from the persisted state preserves this
across any number of iterations and restarts, given that the changes
feed answers `since = c` with `last_seq ≥ c`. -/
theorem sync_cursor_monotone (fetchOk : String → Bool)
    (feed : Nat → FeedResp) (fuel : Nat) (st : SyncState) (r : FeedResp)
    (hr : ∀ results last_seq, r = FeedResp.ok results last_seq →
        st.cursor ≤ last_seq)
    (hfeed : ∀ c results last_seq,
        feed c = FeedResp.ok results last_seq → c ≤ last_seq) :
    st.cursor ≤ (syncIter fetchOk st r).1.cursor
    ∧ noCursorRegression st.cursor (syncIter fetchOk st r).2 = true
    ∧ appliesPrecedePersist (syncIter fetchOk st r).2 = true
    ∧ st.cursor ≤ (runSync fetchOk feed fuel st).cursor := by
  refine ⟨syncIter_cursor_le fetchOk st r hr, ?_, ?_,
    runSync_cursor_le fetchOk feed hfeed fuel st⟩
  · cases r with
    | rate429 => rfl
    | httpErr n => rfl
    | ok results last_seq =>
      have hls := hr results last_seq rfl
      show ((scanChanges st.store results).2.1
          ++ (applyUpdates fetchOk (scanChanges st.store results).1
              (scanChanges st.store results).2.2).2
          ++ [SyncEvent.persistCursor last_seq]
          ++ (if CHANGES_LIMIT ≤ results.length then []
              else [SyncEvent.sleep POLL_INTERVAL])).all _ = true
      rw [List.all_append, List.all_append, List.all_append]
      have h1 : ∀ e ∈ (scanChanges st.store results).2.1,
          (fun e => match e with
            | SyncEvent.persistCursor s => decide (st.cursor ≤ s)
            | _ => true) e = true := by
        intro e he
        rcases scanChanges_events_delete results st.store e he with ⟨id, rfl⟩
        rfl
      have h2 : ∀ e ∈ (applyUpdates fetchOk (scanChanges st.store results).1
          (scanChanges st.store results).2.2).2,
          (fun e => match e with
            | SyncEvent.persistCursor s => decide (st.cursor ≤ s)
            | _ => true) e = true := by
        intro e he
        rcases applyUpdates_events_update fetchOk
          (scanChanges st.store results).2.2
          (scanChanges st.store results).1 e he with ⟨id, rfl⟩
        rfl
      rw [List.all_eq_true.mpr h1, List.all_eq_true.mpr h2]
      simp only [Bool.true_and, List.all_cons, List.all_nil, Bool.and_true]
      rw [decide_eq_true hls, Bool.true_and]
      split <;> rfl
  · cases r with
    | rate429 => rfl
    | httpErr n => rfl
    | ok results last_seq =>
      have hiter : (syncIter fetchOk st (FeedResp.ok results last_seq)).2
          = (scanChanges st.store results).2.1
            ++ (applyUpdates fetchOk (scanChanges st.store results).1
                (scanChanges st.store results).2.2).2
            ++ [SyncEvent.persistCursor last_seq]
            ++ (if CHANGES_LIMIT ≤ results.length then []
                else [SyncEvent.sleep POLL_INTERVAL]) := rfl
      rw [hiter, List.append_assoc, List.append_assoc]
      rw [appliesPrecedePersist_append (fun e he => by
        rcases scanChanges_events_delete results st.store e he with ⟨id, rfl⟩
        rfl)]
      rw [appliesPrecedePersist_append (fun e he => by
        rcases applyUpdates_events_update fetchOk
          (scanChanges st.store results).2.2
          (scanChanges st.store results).1 e he with ⟨id, rfl⟩
        rfl)]
      rw [List.singleton_append, appliesPrecedePersist]
      simp only [isPersist, if_true]
      split <;> rfl

/-- C5 witness: one successful iteration applying an update for a cached
package at sequence 42 from cursor 5, and a three-iteration run against
an echoing feed. -/
theorem sync_cursor_monotone_witness :
    (5 : Nat) ≤ (syncIter (fun _ => true)
        ⟨5, 10000, ["express"]⟩
        (FeedResp.ok [⟨42, "express", false⟩] 42)).1.cursor
    ∧ noCursorRegression 5 (syncIter (fun _ => true)
        ⟨5, 10000, ["express"]⟩
        (FeedResp.ok [⟨42, "express", false⟩] 42)).2 = true
    ∧ appliesPrecedePersist (syncIter (fun _ => true)
        ⟨5, 10000, ["express"]⟩
        (FeedResp.ok [⟨42, "express", false⟩] 42)).2 = true
    ∧ (5 : Nat) ≤ (runSync (fun _ => true) (fun c => FeedResp.ok [] c) 3
        ⟨5, 10000, ["express"]⟩).cursor :=
  sync_cursor_monotone (fun _ => true) (fun c => FeedResp.ok [] c) 3
    ⟨5, 10000, ["express"]⟩ (FeedResp.ok [⟨42, "express", false⟩] 42)
    (fun results last_seq h => by
      injection h with h1 h2
      subst h2
      decide)
    (fun c results last_seq h => by
      injection h with h1 h2
      subst h2
      exact Nat.le_refl c)

/-- C8: a 429 response makes the iteration sleep the current backoff and
then double it up to the five-minute cap, leaving the cursor unchanged
and writing nothing; a 2xx response resets the backoff to the poll
interval. -/
theorem sync_backoff_429_reset (fetchOk : String → Bool) (st : SyncState)
    (results : List Chg) (last_seq : Nat) :
    (syncIter fetchOk st FeedResp.rate429).2 = [SyncEvent.sleep st.backoff]
    ∧ (syncIter fetchOk st FeedResp.rate429).1.backoff
        = min (2 * st.backoff) BACKOFF_CAP
    ∧ (syncIter fetchOk st FeedResp.rate429).1.cursor = st.cursor
    ∧ (syncIter fetchOk st (FeedResp.ok results last_seq)).1.backoff
        = POLL_INTERVAL :=
  ⟨rfl, rfl, rfl, rfl⟩

/-! ### Prefetcher claims -/

theorem scanDeps_spec (cache inflight : String → Bool) :
    ∀ (deps visited : List String) (count : Nat),
      visited ⊆ (scanDeps cache inflight deps visited count).1
      ∧ (scanDeps cache inflight deps visited count).2.2.Nodup
      ∧ (∀ n ∈ (scanDeps cache inflight deps visited count).2.2,
          n ∉ visited)
      ∧ (∀ n ∈ (scanDeps cache inflight deps visited count).2.2,
          n ∈ (scanDeps cache inflight deps visited count).1) := by
  intro deps
  induction deps with
  | nil =>
    intro visited count
    refine ⟨fun a ha => ha, List.nodup_nil, ?_, ?_⟩ <;>
      intro n hn <;> simp [scanDeps] at hn
  | cons n rest ih =>
    intro visited count
    by_cases h1 : n ∈ visited
    · have hres : scanDeps cache inflight (n :: rest) visited count
          = scanDeps cache inflight rest visited count := by
        rw [scanDeps, if_pos h1]
      rw [hres]
      exact ih visited count
    · have hsub : visited ⊆ visited ++ [n] := List.subset_append_left _ _
      by_cases h2 : cache n = true
      · have hres : scanDeps cache inflight (n :: rest) visited count
            = scanDeps cache inflight rest (visited ++ [n]) count := by
          rw [scanDeps, if_neg h1, if_pos h2]
        rw [hres]
        obtain ⟨g1, g2, g3, g4⟩ := ih (visited ++ [n]) count
        exact ⟨fun a ha => g1 (hsub ha), g2,
          fun m hm hmv => g3 m hm (hsub hmv), g4⟩
      · by_cases h3 : inflight n = true
        · have hres : scanDeps cache inflight (n :: rest) visited count
              = scanDeps cache inflight rest (visited ++ [n]) count := by
            rw [scanDeps, if_neg h1, if_neg h2, if_pos h3]
          rw [hres]
          obtain ⟨g1, g2, g3, g4⟩ := ih (visited ++ [n]) count
          exact ⟨fun a ha => g1 (hsub ha), g2,
            fun m hm hmv => g3 m hm (hsub hmv), g4⟩
        · by_cases h4 : MAX_PREFETCH ≤ count
          · have hres : scanDeps cache inflight (n :: rest) visited count
                = (visited ++ [n], count, []) := by
              rw [scanDeps, if_neg h1, if_neg h2, if_neg h3, if_pos h4]
            rw [hres]
            refine ⟨hsub, List.nodup_nil, ?_, ?_⟩ <;>
              intro m hm <;> exact absurd hm (List.not_mem_nil m)
          · have hres : scanDeps cache inflight (n :: rest) visited count
                = ((scanDeps cache inflight rest (visited ++ [n])
                      (count + 1)).1,
                   (scanDeps cache inflight rest (visited ++ [n])
                      (count + 1)).2.1,
                   n :: (scanDeps cache inflight rest (visited ++ [n])
                      (count + 1)).2.2) := by
              rw [scanDeps, if_neg h1, if_neg h2, if_neg h3, if_neg h4]
            rw [hres]
            obtain ⟨g1, g2, g3, g4⟩ := ih (visited ++ [n]) (count + 1)
            have hnv : n ∈ visited ++ [n] :=
              List.mem_append_right _ (List.mem_singleton.mpr rfl)
            refine ⟨fun a ha => g1 (hsub ha), ?_, ?_, ?_⟩
            · exact List.nodup_cons.mpr ⟨fun hc => g3 n hc hnv, g2⟩
            · intro m hm
              rcases List.mem_cons.mp hm with hm | hm
              · rw [hm]; exact h1
              · exact fun hmv => g3 m hm (hsub hmv)
            · intro m hm
              rcases List.mem_cons.mp hm with hm | hm
              · rw [hm]; exact g1 hnv
              · exact g4 m hm

theorem prefetchLoop_spec (env : String → Option J)
    (cache inflight : String → Bool) :
    ∀ (fuel : Nat) (queue : List J) (visited : List String) (count : Nat),
      (prefetchLoop env cache inflight fuel queue visited count).Nodup
      ∧ ∀ n ∈ prefetchLoop env cache inflight fuel queue visited count,
          n ∉ visited := by
  intro fuel
  induction fuel with
  | zero =>
    intro queue visited count
    exact ⟨List.nodup_nil, fun n hn => absurd hn (List.not_mem_nil n)⟩
  | succ f ih =>
    intro queue visited count
    cases queue with
    | nil =>
      exact ⟨List.nodup_nil, fun n hn => absurd hn (List.not_mem_nil n)⟩
    | cons cur rest =>
      obtain ⟨g1, g2, g3, g4⟩ :=
        scanDeps_spec cache inflight (extractDeps cur) visited count
      by_cases hb : MAX_PREFETCH ≤
          (scanDeps cache inflight (extractDeps cur) visited count).2.1
      · have hres : prefetchLoop env cache inflight (f + 1)
            (cur :: rest) visited count = [] := by
          rw [prefetchLoop]
          simp only [if_pos hb]
        rw [hres]
        exact ⟨List.nodup_nil, fun n hn => absurd hn (List.not_mem_nil n)⟩
      · have hres : prefetchLoop env cache inflight (f + 1)
            (cur :: rest) visited count
            = (scanDeps cache inflight (extractDeps cur) visited
                count).2.2.filter (fun n => !cache n)
              ++ prefetchLoop env cache inflight f
                  (rest ++ ((scanDeps cache inflight (extractDeps cur)
                      visited count).2.2.filter
                    (fun n => !cache n)).filterMap
                    (fun n => fetchAndCacheM env n))
                  (scanDeps cache inflight (extractDeps cur) visited count).1
                  (scanDeps cache inflight (extractDeps cur) visited
                    count).2.1 := by
          rw [prefetchLoop]
          simp only [if_neg hb]
        rw [hres]
        obtain ⟨i1, i2⟩ := ih _
          (scanDeps cache inflight (extractDeps cur) visited count).1
          (scanDeps cache inflight (extractDeps cur) visited count).2.1
        constructor
        · apply List.Nodup.append
          · exact g2.filter _
          · exact i1
          · intro a ha hb2
            exact i2 a hb2 (g4 a (List.mem_of_mem_filter ha))
        · intro m hm
          rcases List.mem_append.mp hm with hm | hm
          · exact g3 m (List.mem_of_mem_filter hm)
          · exact fun hmv => i2 m hm (g1 hmv)

/-- C9: within a single prefetch traversal rooted at one document, the
listing of names for which an upstream fetch is issued contains no
duplicates — the per-traversal visited set guarantees at most one fetch
per package name. -/
theorem prefetch_fetches_nodup (env : String → Option J)
    (cache inflight : String → Bool) (fuel : Nat) (root : J) :
    (prefetchTree env cache inflight fuel root).Nodup := by
  unfold prefetchTree
  exact (prefetchLoop_spec env cache inflight fuel [root] _ 0).1

end UpmRegistry
